import Mathlib

/-!
Shallow embedding of the authenticated RAM subsystem of diet-mac-and-cheese
(`src/diet-mac-and-cheese/src/ram/{mod,prover,verifier,tx}.rs`), at the level of
the cleartext field values carried by the MAC wires.

Conventions of the embedding:
* the Prover-local `HashMap<Box<[V]>, Vec<V>>` is modelled as an association
  list from address tuples to records, with `mapFind` / `mapErase` / a cons
  insert standing for `get` / `remove` / `entry.insert`;
* a Rust `panic!`-class fault (`unimplemented!`, the double-entry fault, a
  failed `assert_eq!`) is modelled as `Option.none`;
* the blake3 hasher is modelled by the exact list of bytes absorbed so far,
  together with an abstract digest function `hash : List Nat → List Nat`
  standing for the (collaborator) blake3 compression, and an abstract
  `fromU : List Nat → F` standing for `F::from_uniform_bytes`.
-/

set_option maxHeartbeats 1000000
set_option linter.unusedSectionVars false

namespace DoraRam

variable {F : Type} [CommRing F] [DecidableEq F]

/-- Lookup in the association-list model of `HashMap<Box<[V]>, Vec<V>>`. -/
def mapFind (m : List (List F × List F)) (k : List F) : Option (List F) :=
  match m with
  | [] => none
  | (k2, v) :: m2 => if k2 = k then some v else mapFind m2 k

/-- Removal of a key, modelling `HashMap::remove`'s effect on the stored map
(the returned old record is obtained with `mapFind` before erasing). -/
def mapErase (m : List (List F × List F)) (k : List F) : List (List F × List F) :=
  m.filter (fun kv => kv.1 ≠ k)

/-- Prover-side RAM state (`ram/prover.rs`, `struct Prover`): the local
cleartext memory map plus the two operation logs `rds` and `wrs` of flat
records.  The transcript hasher is handled separately (see `TxChannel`),
since none of the value-level claims depend on the tag material. -/
structure PS (F : Type) where
  memory : List (List F × List F)
  rds : List (List F)
  wrs : List (List F)
deriving DecidableEq

/-- Fresh prover state: `Prover::new` starts with empty memory and logs. -/
def PS.new : PS F := { memory := [], rds := [], wrs := [] }

/-- `Prover::remove` (`ram/prover.rs` lines 98-134), value level: take the old
record out of the map (the all-zero default of length `dv + dc` if absent),
push the flat record `addr ++ old` onto `rds`, and return the slice
`flat[da .. da+dv]` as the value. -/
def PS.remove (da dv dc : Nat) (s : PS F) (addr : List F) : List F × PS F :=
  let old := (mapFind s.memory addr).getD (List.replicate (dv + dc) (0 : F))
  let flat := addr ++ old
  (((flat.drop da).take dv),
   { memory := mapErase s.memory addr
     rds := s.rds ++ [flat]
     wrs := s.wrs })

/-- `Prover::insert` (`ram/prover.rs` lines 136-172), value level: a present
address is the fatal double-entry fault (modelled as `none`); otherwise the
flat record `addr ++ value ++ chals` is pushed onto `wrs` and its tail
`flat[da ..]` is stored in the map. -/
def PS.insert (da : Nat) (s : PS F) (addr value chals : List F) :
    Option (PS F) :=
  match mapFind s.memory addr with
  | some _ => none
  | none =>
      let flat := addr ++ value ++ chals
      some { memory := (addr, flat.drop da) :: s.memory
             rds := s.rds
             wrs := s.wrs ++ [flat] }

/-- `MemoryProver::read` (`ram/mod.rs` lines 143-160): `remove` then `insert`
the same value back, returning `value[0]`.  The fresh per-write challenge
material drawn from the transcript is passed in as `chals`. -/
def memRead (dc : Nat) (s : PS F) (a : F) (chals : List F) :
    Option (F × PS F) :=
  let r := PS.remove 1 1 dc s [a]
  (PS.insert 1 r.2 [a] r.1 chals).map (fun s2 => (r.1.getD 0 0, s2))

/-- `MemoryProver::write` (`ram/mod.rs` lines 162-180): `remove` (discarding
the old value) then `insert` the new value. -/
def memWrite (dc : Nat) (s : PS F) (a v : F) (chals : List F) : Option (PS F) :=
  let r := PS.remove 1 1 dc s [a]
  PS.insert 1 r.2 [a] [v] chals

/-- One facade operation issued by the evaluator, with the challenge material
its `insert` half draws from the transcript recorded as data. -/
inductive MOp (F : Type) where
  | write (a v : F) (chals : List F)
  | read (a : F) (chals : List F)

/-- Step of the facade state machine. -/
def memStep (dc : Nat) (s : PS F) : MOp F → Option (PS F)
  | .write a v ch => memWrite dc s a v ch
  | .read a ch => (memRead dc s a ch).map (fun r => r.2)

/-- Run a sequence of facade operations. -/
def memRun (dc : Nat) (s : PS F) : List (MOp F) → Option (PS F)
  | [] => some s
  | op :: ops => (memStep dc s op).bind (fun s2 => memRun dc s2 ops)

/-- Cleartext value currently held at single-element address `[a]` (the value
part of the stored record, or the zero default if the address is absent). -/
def peekValue (s : PS F) (a : F) : F :=
  match mapFind s.memory [a] with
  | some r => r.getD 0 0
  | none => 0

/-- The value most recently written to `a` by an operation sequence, if any. -/
def lastWrite (a : F) (ops : List (MOp F)) : Option F :=
  ops.foldl
    (fun acc op =>
      match op with
      | .write a2 v _ => if a2 = a then some v else acc
      | .read _ _ => acc)
    none

/-- Tail of `lastWrite` starting from an arbitrary accumulator, used to state
the induction that tracks the most recent write through a run. -/
def lastWriteAux (a : F) (acc : Option F) (ops : List (MOp F)) : Option F :=
  ops.foldl
    (fun ac op =>
      match op with
      | .write a2 v _ => if a2 = a then some v else ac
      | .read _ _ => ac)
    acc

/-- Well-formedness of the prover memory: every stored record is non-empty.
Every record the code stores is `value ++ chals` with `dim_value ≥ 1`, so this
holds in every reachable state. -/
def wfRecords (s : PS F) : Prop :=
  ∀ kv ∈ s.memory, kv.2 ≠ ([] : List F)

/-- `combine` (`ram/mod.rs` lines 33-44), value level: Horner fold of a record
with base `x`; the Rust code `unwrap`s the first element of the iterator, so
an empty record is a fault, modelled as `none`. -/
def combineV (ts : List F) (x : F) : Option F :=
  match ts with
  | [] => none
  | t :: rest => some (rest.foldl (fun y c => y * x + c) t)

/-- `collapse_vecs` (`ram/mod.rs` lines 46-56): combine every record of a log
into a single field element, in order, propagating `combine`'s fault. -/
def collapseVecs (records : List (List F)) (x : F) : Option (List F) :=
  match records with
  | [] => some []
  | r :: rest =>
      match combineV r x, collapseVecs rest x with
      | some y, some out => some (y :: out)
      | _, _ => none

/-- `BoundedIter::next` (`ram/mod.rs` lines 80-93) collected into a list:
starting from `cur`, yield the current one-element address then increment it
by `F::ONE`, `rem` times. -/
def boundedIter (cur : F) : Nat → List (List F)
  | 0 => []
  | rem + 1 => [cur] :: boundedIter (cur + 1) rem

/-- `<Bounded as MemorySpace>::enumerate` (`ram/mod.rs` lines 115-120):
iteration starts at `F::ZERO` with `rem = bound`. -/
def boundedEnumerate (F : Type) [CommRing F] (bound : Nat) : List (List F) :=
  boundedIter (0 : F) bound

/-- `<Bounded as MemorySpace>::size` (`ram/mod.rs` lines 111-113). -/
def boundedSize (bound : Nat) : Nat := bound

/-- Modelled from the spec: `ram/perm.rs` (the `permutation` function called by
`Prover::finalize` and `Verifier::finalize`) is absent from the sources; per
spec section 4.4 it reduces multiset equality of the two collapsed logs to the
product identity `prod (lhs_i + chal) = prod (rhs_i + chal)`, enforced with a
final `assert_zero`.  `true` means the check accepts. -/
def permutationCheck (x : F) (lhs rhs : List F) : Bool :=
  decide ((lhs.map (fun y => y + x)).prod = (rhs.map (fun y => y + x)).prod)

/-- Address-space drain of `Prover::finalize` (`ram/prover.rs` lines 177-188):
for every address of the space, push the pre-image record `addr ++ 0^(dv+dc)`
onto `wrs` and then `remove` the address. -/
def proverDrain (da dv dc : Nat) (s : PS F) (addrs : List (List F)) : PS F :=
  addrs.foldl
    (fun st addr =>
      let st1 : PS F :=
        { st with wrs := st.wrs ++ [addr ++ List.replicate (dv + dc) (0 : F)] }
      (PS.remove da dv dc st1 addr).2)
    s

/-- `Prover::finalize` (`ram/prover.rs` lines 174-209): drain the address
space, `assert_eq!` the log lengths (failure modelled as `none`), collapse both
logs at the combination challenge, and run the (spec-modelled) permutation
check at the two permutation challenges.  `some b` reports whether both
checks accept. -/
def proverFinalize (da dv dc : Nat) (s : PS F) (addrs : List (List F))
    (chalCmbn chalPerm1 chalPerm2 : F) : Option Bool :=
  let s1 := proverDrain da dv dc s addrs
  if s1.rds.length = s1.wrs.length then
    match collapseVecs s1.wrs chalCmbn, collapseVecs s1.rds chalCmbn with
    | some ws, some rs =>
        some (permutationCheck chalPerm1 ws rs && permutationCheck chalPerm2 ws rs)
    | _, _ => none
  else none

/-- Verifier-side RAM state (`ram/verifier.rs`, `struct Verifier`): the
cleartext memory map (of the same type as the Prover's, but — as the theorems
show — never touched) plus the two logs of opaque authenticated wires, of
abstract type `W`. -/
structure VS (F W : Type) where
  memory : List (List F × List F)
  rds : List (List W)
  wrs : List (List W)

/-- Fresh verifier state: `Verifier::new` starts with empty memory and logs. -/
def VS.new (F W : Type) : VS F W := { memory := [], rds := [], wrs := [] }

/-- `Verifier::remove` (`ram/verifier.rs` lines 91-124): the record tail is
received from the channel as `dv + dc` opaque wires `fromCh`; the flat record
`addr ++ fromCh` is pushed onto `rds` and the value slice returned.  The
memory map is not consulted. -/
def VS.remove (da dv : Nat) (s : VS F W) (addr fromCh : List W) :
    List W × VS F W :=
  let flat := addr ++ fromCh
  ((flat.drop da).take dv, { s with rds := s.rds ++ [flat] })

/-- `Verifier::insert` (`ram/verifier.rs` lines 126-146): the flat record
`addr ++ value ++ chalWires` is pushed onto `wrs`; there is no double-entry
check and the memory map is not touched. -/
def VS.insert (s : VS F W) (addr value chalWires : List W) : VS F W :=
  { s with wrs := s.wrs ++ [addr ++ value ++ chalWires] }

/-- One verifier-side facade operation (`MemoryVerifier::read/write`,
`ram/mod.rs` lines 210-247), with the wires received from the channel and the
challenge wires recorded as data. -/
inductive VOp (W : Type) where
  | write (addr value fromCh chalWires : List W)
  | read (addr fromCh chalWires : List W)

/-- Step of the verifier facade: `read` is `remove` then `insert` of the value
just removed; `write` is `remove` (discarding) then `insert` of the new value. -/
def vStep (da dv : Nat) (s : VS F W) : VOp W → VS F W
  | .write addr value fromCh chalWires =>
      (VS.remove da dv s addr fromCh).2.insert addr value chalWires
  | .read addr fromCh chalWires =>
      let r := VS.remove da dv s addr fromCh
      r.2.insert addr r.1 chalWires

/-- Run a sequence of verifier facade operations. -/
def vRun (da dv : Nat) (s : VS F W) : List (VOp W) → VS F W
  | [] => s
  | op :: ops => vRun da dv (vStep da dv s op) ops

/-- Address-space drain of `Verifier::finalize` (`ram/verifier.rs` lines
149-165): `pre` is a row of public-input wires whose tail `preTail` (the
`dv + dc` zero-value wires) is never overwritten; per address the record
`addrW ++ preTail` is pushed onto `wrs`, then the address is `remove`d with
fresh wires `fromCh` from the channel. -/
def verifierDrain (da dv : Nat) (s : VS F W) (preTail : List W)
    (items : List (List W × List W)) : VS F W :=
  items.foldl
    (fun st it =>
      let st1 : VS F W := { st with wrs := st.wrs ++ [it.1 ++ preTail] }
      (VS.remove da dv st1 it.1 it.2).2)
    s

/-- The log-length `assert_eq!` of `Verifier::finalize` as the code orders it
(`ram/verifier.rs` lines 175-185): both logs are collapsed, then cleared with
`Vec::clear`, and only then are their lengths compared.  `true` means the
assertion passes. -/
def verifierLenCheckAtFinalize (s : VS F W) : Bool :=
  let cleared : VS F W := { s with rds := [], wrs := [] }
  decide (cleared.rds.length = cleared.wrs.length)

/-- Transcript channel state (`ram/tx.rs`, `struct TxChannel`): the blake3
hasher is represented extensionally by the list of bytes absorbed so far, in
order.  The underlying raw channel is a collaborator and is not part of the
state; the bytes it delivers or accepts appear as operation data. -/
structure TxChannel where
  absorbed : List Nat
deriving DecidableEq

/-- `blake3::Hasher::update`: absorb bytes into the running hash state. -/
def TxChannel.update (t : TxChannel) (bs : List Nat) : TxChannel :=
  { absorbed := t.absorbed ++ bs }

/-- `TxChannel::read_bytes` (`ram/tx.rs` lines 19-23): the bytes `incoming`
fill the buffer from the raw channel and are then absorbed. -/
def txReadBytes (t : TxChannel) (incoming : List Nat) : TxChannel :=
  t.update incoming

/-- `TxChannel::write_bytes` (`ram/tx.rs` lines 25-28): the outgoing bytes are
absorbed and forwarded to the raw channel. -/
def txWriteBytes (t : TxChannel) (outgoing : List Nat) : TxChannel :=
  t.update outgoing

/-- `TxChannel::clone` (`ram/tx.rs` lines 12-17) is `unimplemented!`: it
unconditionally raises the fatal cloning fault and never produces a duplicate
channel, modelled as `none`. -/
def TxChannel.clone (_t : TxChannel) : Option TxChannel := none

/-- First field element squeezed by `TxChannel::challenge` (`ram/tx.rs` lines
40-57): the digest of the current state is finalized — without mutating the
state — and its first 16 bytes are mapped into the field by
`F::from_uniform_bytes` (abstracted as `fromU`, with `hash` the blake3
digest function). -/
def challengeFst (hash : List Nat → List Nat) (fromU : List Nat → F)
    (t : TxChannel) : F :=
  fromU ((hash t.absorbed).take 16)

/-- Second field element of one `challenge<N>` call, built from bytes 16..32
of the same digest. -/
def challengeSnd (hash : List Nat → List Nat) (fromU : List Nat → F)
    (t : TxChannel) : F :=
  fromU (((hash t.absorbed).drop 16).take 16)

/-- The `N`-element output of a single `TxChannel::challenge` call: the loop
re-finalizes the (unchanged) digest on every iteration and fills even slots
from its first half and odd slots from its second half. -/
def challengeVec (hash : List Nat → List Nat) (fromU : List Nat → F)
    (t : TxChannel) (n : Nat) : List F :=
  (List.range n).map
    (fun i => if i % 2 = 0 then challengeFst hash fromU t else challengeSnd hash fromU t)

/-- The `dim_chal` scalar challenge draws of one `Prover::insert` call
(`ram/prover.rs` line 157): `(0..self.dim_chal).map(|_| ch.challenge())`,
with no channel traffic between the draws. -/
def insertChals (hash : List Nat → List Nat) (fromU : List Nat → F)
    (dc : Nat) (t : TxChannel) : List F :=
  (List.range dc).map (fun _ => challengeFst hash fromU t)

/-- One event on the transcript channel: a buffer of bytes read, a buffer of
bytes written, or a (scalar) challenge draw. -/
inductive ChOp where
  | readBy (bs : List Nat)
  | writeBy (bs : List Nat)
  | chal
deriving DecidableEq

/-- Run a trace of channel events, returning the final channel state and the
stream of challenge outputs in order. -/
def runTx (hash : List Nat → List Nat) (fromU : List Nat → F)
    (t : TxChannel) : List ChOp → TxChannel × List F
  | [] => (t, [])
  | .readBy bs :: ops => runTx hash fromU (txReadBytes t bs) ops
  | .writeBy bs :: ops => runTx hash fromU (txWriteBytes t bs) ops
  | .chal :: ops =>
      let r := runTx hash fromU t ops
      (r.1, challengeFst hash fromU t :: r.2)

/-- All bytes a trace exchanges over the channel, in order, reads and writes
alike. -/
def bytesOf : List ChOp → List Nat
  | [] => []
  | .readBy bs :: ops => bs ++ bytesOf ops
  | .writeBy bs :: ops => bs ++ bytesOf ops
  | .chal :: ops => bytesOf ops

/-- The counterparty view of a trace: every buffer one side writes, the other
side reads, and challenge draws happen at the same points. -/
def mirrorOp : ChOp → ChOp
  | .readBy bs => .writeBy bs
  | .writeBy bs => .readBy bs
  | .chal => .chal

theorem mapFind_erase_self (m : List (List F × List F)) (k : List F) :
    mapFind (mapErase m k) k = none := by
  induction m with
  | nil => rfl
  | cons kv m ih =>
      by_cases h : kv.1 = k
      · simpa [mapErase, h] using ih
      · simpa [mapErase, mapFind, h] using ih

theorem mapFind_erase_ne (m : List (List F × List F)) (k k2 : List F)
    (h : k2 ≠ k) : mapFind (mapErase m k) k2 = mapFind m k2 := by
  induction m with
  | nil => rfl
  | cons kv m ih =>
      by_cases hk : kv.1 = k
      · have hne : kv.1 ≠ k2 := fun he => h (he.symm.trans hk)
        have he1 : mapErase (kv :: m) k = mapErase m k := by
          simp [mapErase, List.filter_cons, hk]
        have he2 : mapFind (kv :: m) k2 = mapFind m k2 := by
          simp [mapFind, hne]
        rw [he1, ih, he2]
      · have he1 : mapErase (kv :: m) k = kv :: mapErase m k := by
          simp [mapErase, List.filter_cons, hk]
        by_cases h2 : kv.1 = k2
        · simp [he1, mapFind, h2]
        · simp [he1, mapFind, h2, ih]

theorem remove_insert_eq (dc : Nat) (s : PS F) (a : F) (value ch : List F) :
    PS.insert 1 (PS.remove 1 1 dc s [a]).2 [a] value ch =
      some
        { memory := ([a], value ++ ch) :: mapErase s.memory [a]
          rds := s.rds ++
            [[a] ++ (mapFind s.memory [a]).getD (List.replicate (1 + dc) (0 : F))]
          wrs := s.wrs ++ [[a] ++ value ++ ch] } := by
  simp [PS.remove, PS.insert, mapFind_erase_self]

theorem remove_value_eq (dc : Nat) (s : PS F) (a : F) :
    (PS.remove 1 1 dc s [a]).1 =
      ((mapFind s.memory [a]).getD (List.replicate (1 + dc) (0 : F))).take 1 := by
  simp [PS.remove]

theorem take_one_getD (l : List F) : (l.take 1).getD 0 0 = l.getD 0 0 := by
  cases l <;> simp

theorem mapFind_mem (m : List (List F × List F)) (k v : List F)
    (h : mapFind m k = some v) : (k, v) ∈ m := by
  induction m with
  | nil => simp [mapFind] at h
  | cons kv m ih =>
      by_cases hk : kv.1 = k
      · have h2 : mapFind (kv :: m) k = some kv.2 := by simp [mapFind, hk]
        rw [h2] at h
        have h3 := Option.some.inj h
        subst h3
        exact List.mem_cons.mpr (Or.inl (by rw [← hk]))
      · have h2 : mapFind (kv :: m) k = mapFind m k := by simp [mapFind, hk]
        rw [h2] at h
        exact List.mem_cons_of_mem _ (ih h)

theorem replicate_headD (dc : Nat) :
    (List.replicate (1 + dc) (0 : F)).getD 0 0 = 0 := by
  rw [Nat.add_comm]
  simp [List.replicate_succ]

theorem memWrite_spec (dc : Nat) (s : PS F) (a v : F) (ch : List F) :
    memWrite dc s a v ch =
      some
        { memory := ([a], [v] ++ ch) :: mapErase s.memory [a]
          rds := s.rds ++
            [[a] ++ (mapFind s.memory [a]).getD (List.replicate (1 + dc) (0 : F))]
          wrs := s.wrs ++ [[a] ++ [v] ++ ch] } := by
  simpa [memWrite] using remove_insert_eq dc s a [v] ch

theorem memRead_spec (dc : Nat) (s : PS F) (a : F) (ch : List F) :
    memRead dc s a ch =
      some (peekValue s a,
        { memory :=
            ([a],
              ((mapFind s.memory [a]).getD (List.replicate (1 + dc) (0 : F))).take 1
                ++ ch) :: mapErase s.memory [a]
          rds := s.rds ++
            [[a] ++ (mapFind s.memory [a]).getD (List.replicate (1 + dc) (0 : F))]
          wrs := s.wrs ++
            [[a] ++
              ((mapFind s.memory [a]).getD (List.replicate (1 + dc) (0 : F))).take 1
                ++ ch] }) := by
  have hv :
      (((mapFind s.memory [a]).getD (List.replicate (1 + dc) (0 : F))).take 1).getD 0 0
        = peekValue s a := by
    cases hm : mapFind s.memory [a] with
    | none => simp [peekValue, hm, take_one_getD, replicate_headD]
    | some rec => simp [peekValue, hm, take_one_getD]
  simp only [memRead, remove_insert_eq, remove_value_eq, Option.map_some']
  rw [hv]

theorem peekValue_memWrite (dc : Nat) (s s2 : PS F) (a v : F) (ch : List F)
    (h : memWrite dc s a v ch = some s2) (b : F) :
    peekValue s2 b = if b = a then v else peekValue s b := by
  rw [memWrite_spec] at h
  cases h
  by_cases hba : b = a
  · subst hba
    simp [peekValue, mapFind]
  · have hne : ([a] : List F) ≠ [b] := by
      intro he
      exact hba (List.cons.injEq .. |>.mp he).1.symm
    have hne2 : ([b] : List F) ≠ [a] := fun he => hne he.symm
    simp [peekValue, mapFind, hne, mapFind_erase_ne _ _ _ hne2, hba]

theorem peekValue_memRead (dc : Nat) (s : PS F) (r2 : F × PS F) (a : F)
    (ch : List F) (h : memRead dc s a ch = some r2) (hw : wfRecords s) :
    r2.1 = peekValue s a ∧ ∀ b : F, peekValue r2.2 b = peekValue s b := by
  rw [memRead_spec] at h
  cases h
  refine ⟨rfl, fun b => ?_⟩
  by_cases hba : b = a
  · subst hba
    cases hm : mapFind s.memory [b] with
    | none =>
        have : (List.replicate (1 + dc) (0 : F)).take 1 = [0] := by
          rw [Nat.add_comm]
          simp [List.replicate_succ]
        simp [peekValue, mapFind, hm, this]
    | some rec =>
        have hrec : rec ≠ [] := hw _ (mapFind_mem _ _ _ hm)
        obtain ⟨x, rest, rfl⟩ : ∃ x rest, rec = x :: rest := by
          cases rec with
          | nil => exact absurd rfl hrec
          | cons x rest => exact ⟨x, rest, rfl⟩
        simp [peekValue, mapFind, hm]
  · have hne : ([a] : List F) ≠ [b] := by
      intro he
      exact hba (List.cons.injEq .. |>.mp he).1.symm
    have hne2 : ([b] : List F) ≠ [a] := fun he => hne he.symm
    simp [peekValue, mapFind, hne, mapFind_erase_ne _ _ _ hne2]

theorem wfRecords_memWrite (dc : Nat) (s s2 : PS F) (a v : F) (ch : List F)
    (h : memWrite dc s a v ch = some s2) (hw : wfRecords s) : wfRecords s2 := by
  rw [memWrite_spec] at h
  cases h
  intro kv hkv
  rcases List.mem_cons.mp hkv with hkv | hkv
  · subst hkv
    simp
  · exact hw kv (List.mem_of_mem_filter hkv)

theorem wfRecords_memRead (dc : Nat) (s : PS F) (r2 : F × PS F) (a : F)
    (ch : List F) (h : memRead dc s a ch = some r2) (hw : wfRecords s) :
    wfRecords r2.2 := by
  rw [memRead_spec] at h
  cases h
  intro kv hkv
  rcases List.mem_cons.mp hkv with hkv | hkv
  · subst hkv
    cases hm : mapFind s.memory [a] with
    | none =>
        have : (List.replicate (1 + dc) (0 : F)).take 1 = [0] := by
          rw [Nat.add_comm]
          simp [List.replicate_succ]
        simp [hm, this]
    | some rec =>
        have hrec : rec ≠ [] := hw _ (mapFind_mem _ _ _ hm)
        obtain ⟨x, rest, rfl⟩ : ∃ x rest, rec = x :: rest := by
          cases rec with
          | nil => exact absurd rfl hrec
          | cons x rest => exact ⟨x, rest, rfl⟩
        simp [hm]
  · exact hw kv (List.mem_of_mem_filter hkv)

theorem memStep_lens (dc : Nat) (s s2 : PS F) (op : MOp F)
    (h : memStep dc s op = some s2) :
    s2.rds.length = s.rds.length + 1 ∧ s2.wrs.length = s.wrs.length + 1 := by
  cases op with
  | write a v ch =>
      rw [memStep, memWrite_spec] at h
      cases h
      simp
  | read a ch =>
      rw [memStep, memRead_spec] at h
      simp only [Option.map_some'] at h
      cases h
      simp

theorem memStep_peek_wf (dc : Nat) (s s2 : PS F) (op : MOp F)
    (h : memStep dc s op = some s2) (hw : wfRecords s) :
    wfRecords s2 ∧
      ∀ b : F,
        peekValue s2 b =
          match op with
          | .write a2 v _ => if b = a2 then v else peekValue s b
          | .read _ _ => peekValue s b := by
  cases op with
  | write a v ch =>
      rw [memStep] at h
      exact ⟨wfRecords_memWrite dc s s2 a v ch h hw,
        fun b => peekValue_memWrite dc s s2 a v ch h b⟩
  | read a ch =>
      rw [memStep] at h
      rcases Option.map_eq_some'.mp h with ⟨r2, hr2, hs2⟩
      subst hs2
      exact ⟨wfRecords_memRead dc s r2 a ch hr2 hw,
        fun b => (peekValue_memRead dc s r2 a ch hr2 hw).2 b⟩

theorem memRun_inv (dc : Nat) (ops : List (MOp F)) :
    ∀ s s2 : PS F, memRun dc s ops = some s2 → wfRecords s →
      wfRecords s2 ∧
      s2.rds.length = s.rds.length + ops.length ∧
      s2.wrs.length = s.wrs.length + ops.length ∧
      ∀ (a : F) (acc : Option F), peekValue s a = acc.getD 0 →
        peekValue s2 a = (lastWriteAux a acc ops).getD 0 := by
  induction ops with
  | nil =>
      intro s s2 h hw
      rw [memRun] at h
      cases h
      exact ⟨hw, by simp, by simp, fun a acc hacc => by simpa [lastWriteAux] using hacc⟩
  | cons op ops ih =>
      intro s s2 h hw
      rw [memRun] at h
      rcases Option.bind_eq_some.mp h with ⟨s1, hstep, hrun⟩
      obtain ⟨hw1, hpk1⟩ := memStep_peek_wf dc s s1 op hstep hw
      obtain ⟨hlr, hlw⟩ := memStep_lens dc s s1 op hstep
      obtain ⟨hw2, hl1, hl2, hpk2⟩ := ih s1 s2 hrun hw1
      refine ⟨hw2, by simp only [List.length_cons]; omega,
        by simp only [List.length_cons]; omega, fun a acc hacc => ?_⟩
      cases op with
      | write a2 v ch =>
          have hstepacc :
              peekValue s1 a = (if a2 = a then some v else acc).getD 0 := by
            rw [hpk1 a]
            by_cases hea : a = a2
            · subst hea
              simp
            · have : ¬ (a2 = a) := fun he => hea he.symm
              simp only [if_neg hea, if_neg this]
              exact hacc
          have := hpk2 a (if a2 = a then some v else acc) hstepacc
          rw [this]
          rfl
      | read a2 ch =>
          have hstepacc : peekValue s1 a = acc.getD 0 := by
            rw [hpk1 a]
            exact hacc
          have := hpk2 a acc hstepacc
          rw [this]
          rfl

theorem lastWrite_eq_aux (a : F) (ops : List (MOp F)) :
    lastWrite a ops = lastWriteAux a none ops := rfl

/-- Claim C1: on the prover RAM facade, a `read(a)` after any operation sequence
returns the value most recently written to `a` (the all-zero default if `a`
was never written); `write(a, v)` followed by `read(a)` returns `v`; and the
net effect of `read` on the stored memory values is a no-op (it removes the
record and re-inserts the same value, only the challenge material being
refreshed). -/
theorem ram_read_returns_last_write (dc : Nat) (ops : List (MOp F)) (s : PS F)
    (a v : F) (chR chW : List F) (h : memRun dc PS.new ops = some s) :
    (∃ r, memRead dc s a chR = some r ∧ r.1 = (lastWrite a ops).getD 0)
    ∧ (∀ s2, memWrite dc s a v chW = some s2 →
        ∃ r, memRead dc s2 a chR = some r ∧ r.1 = v)
    ∧ (∀ r, memRead dc s a chR = some r → ∀ b : F, peekValue r.2 b = peekValue s b)
    ∧ (lastWrite a ops = none →
        ∃ r, memRead dc s a chR = some r ∧ r.1 = 0) := by
  have hwnew : wfRecords (PS.new (F := F)) := by
    intro kv hkv
    simp [PS.new] at hkv
  obtain ⟨hwf, _, _, hpk⟩ := memRun_inv dc ops PS.new s h hwnew
  have hbase : ∀ b : F, peekValue (PS.new (F := F)) b = (none : Option F).getD 0 := by
    intro b
    simp [peekValue, PS.new, mapFind]
  have hpeek : peekValue s a = (lastWrite a ops).getD 0 := by
    rw [lastWrite_eq_aux]
    exact hpk a none (hbase a)
  refine ⟨?_, ?_, ?_, ?_⟩
  · exact ⟨(peekValue s a, _), memRead_spec dc s a chR, hpeek⟩
  · intro s2 h2
    have hpk2 := peekValue_memWrite dc s s2 a v chW h2 a
    simp only [if_pos rfl] at hpk2
    exact ⟨(peekValue s2 a, _), memRead_spec dc s2 a chR, hpk2⟩
  · intro r hr b
    exact (peekValue_memRead dc s r a chR hr hwf).2 b
  · intro hnone
    refine ⟨(peekValue s a, _), memRead_spec dc s a chR, ?_⟩
    rw [hpeek, hnone]
    rfl

theorem ram_read_returns_last_write_witness :
    ∃ r, memRead 1 (⟨[([2], [5, 3])], [[2, 0, 0]], [[2, 5, 3]]⟩ : PS (ZMod 7))
        2 [4] = some r ∧
      r.1 = (lastWrite 2 [MOp.write 2 5 [3]]).getD 0 :=
  (ram_read_returns_last_write 1 [MOp.write (2 : ZMod 7) 5 [3]]
    ⟨[([2], [5, 3])], [[2, 0, 0]], [[2, 5, 3]]⟩ 2 6 [4] [1] (by decide)).1

/-- Claim C3: `Prover::insert` on an address currently present in the memory map is
the fatal double-entry fault (`none` in this embedding, a `panic` in the
code); on an absent address it stores the fresh record and appends the flat
record to the write log. -/
theorem prover_insert_double_entry_fault (da : Nat) (s : PS F)
    (addr value chals : List F) :
    (∀ r, mapFind s.memory addr = some r →
        PS.insert da s addr value chals = none)
    ∧ (mapFind s.memory addr = none →
        ∃ s2, PS.insert da s addr value chals = some s2
          ∧ mapFind s2.memory addr = some ((addr ++ value ++ chals).drop da)
          ∧ s2.wrs = s.wrs ++ [addr ++ value ++ chals]
          ∧ s2.rds = s.rds) := by
  constructor
  · intro r hr
    simp [PS.insert, hr]
  · intro h0
    exact ⟨{ memory := (addr, (addr ++ value ++ chals).drop da) :: s.memory
             rds := s.rds
             wrs := s.wrs ++ [addr ++ value ++ chals] },
      by simp [PS.insert, h0], by simp [mapFind], rfl, rfl⟩

theorem prover_insert_double_entry_fault_witness :
    PS.insert 1 (⟨[([1], [2])], [], []⟩ : PS (ZMod 5)) [1] [3] [4] = none ∧
    ∃ s2, PS.insert 1 (PS.new : PS (ZMod 5)) [1] [3] [4] = some s2
      ∧ mapFind s2.memory [1] = some (([1] ++ [3] ++ [4]).drop 1)
      ∧ s2.wrs = (PS.new : PS (ZMod 5)).wrs ++ [[1] ++ [3] ++ [4]]
      ∧ s2.rds = (PS.new : PS (ZMod 5)).rds :=
  ⟨(prover_insert_double_entry_fault 1 ⟨[([1], [2])], [], []⟩ [1] [3] [4]).1
      [2] (by decide),
   (prover_insert_double_entry_fault 1 PS.new [1] [3] [4]).2 (by decide)⟩

theorem vStep_memory {A W : Type} (da dv : Nat) (s : VS A W) (op : VOp W) :
    (vStep da dv s op).memory = s.memory := by
  cases op <;> rfl

theorem vRun_memory {A W : Type} (da dv : Nat) (ops : List (VOp W)) :
    ∀ s : VS A W, (vRun da dv s ops).memory = s.memory := by
  induction ops with
  | nil => intro s; rfl
  | cons op ops ih =>
      intro s
      rw [vRun, ih, vStep_memory]

theorem verifierDrain_memory {A W : Type} (da dv : Nat) (preTail : List W)
    (items : List (List W × List W)) :
    ∀ s : VS A W, (verifierDrain da dv s preTail items).memory = s.memory := by
  induction items with
  | nil => intro s; rfl
  | cons it items ih =>
      intro s
      rw [show verifierDrain da dv s preTail (it :: items) =
            verifierDrain da dv
              ((VS.remove da dv { s with wrs := s.wrs ++ [it.1 ++ preTail] }
                it.1 it.2).2) preTail items from rfl]
      rw [ih]
      rfl

/-- Claim C9: the Verifier never stores values in cleartext: across any sequence of
verifier-side facade operations, and through the finalize drain, its local
memory map stays empty; the value wires it handles enter only as the opaque
`fromCh` channel inputs recorded in the operations. -/
theorem verifier_memory_stays_empty {A W : Type} (da dv : Nat)
    (ops : List (VOp W)) (preTail : List W) (items : List (List W × List W)) :
    (vRun da dv (VS.new A W) ops).memory = [] ∧
    (verifierDrain da dv (vRun da dv (VS.new A W) ops) preTail items).memory
      = [] := by
  constructor
  · rw [vRun_memory]
    rfl
  · rw [verifierDrain_memory, vRun_memory]
    rfl

/-- Claim C10: `TxChannel::clone` never returns a duplicate of the transcript
channel: it is `unimplemented!` and unconditionally raises the fatal cloning
fault, modelled as `none`. -/
theorem tx_channel_clone_always_fails (t : TxChannel) :
    TxChannel.clone t = none := rfl

theorem runTx_absorbed {G : Type} (hash : List Nat → List Nat)
    (fromU : List Nat → G) (ops : List ChOp) :
    ∀ t : TxChannel,
      ((runTx hash fromU t ops).1).absorbed = t.absorbed ++ bytesOf ops := by
  induction ops with
  | nil => intro t; simp [runTx, bytesOf]
  | cons op ops ih =>
      intro t
      cases op with
      | readBy bs =>
          rw [runTx, ih, bytesOf]
          simp [txReadBytes, TxChannel.update, List.append_assoc]
      | writeBy bs =>
          rw [runTx, ih, bytesOf]
          simp [txWriteBytes, TxChannel.update, List.append_assoc]
      | chal =>
          rw [runTx, bytesOf]
          exact ih t

theorem runTx_mirror {G : Type} (hash : List Nat → List Nat)
    (fromU : List Nat → G) (ops : List ChOp) :
    ∀ t : TxChannel,
      runTx hash fromU t (ops.map mirrorOp) = runTx hash fromU t ops := by
  induction ops with
  | nil => intro t; rfl
  | cons op ops ih =>
      intro t
      cases op with
      | readBy bs =>
          show runTx hash fromU (txWriteBytes t bs) (ops.map mirrorOp) = _
          rw [ih]
          rfl
      | writeBy bs =>
          show runTx hash fromU (txReadBytes t bs) (ops.map mirrorOp) = _
          rw [ih]
          rfl
      | chal =>
          show (_, _) = (_, _)
          rw [ih]

/-- Claim C5: the challenge stream is a deterministic function of the bytes
absorbed into the transcript: every byte read and every byte written is
absorbed in order, the counterparty trace (writes and reads swapped) yields
the identical challenge stream, and any channel whose absorbed byte history
is identical yields the identical challenge stream. -/
theorem transcript_challenges_deterministic {G : Type}
    (hash : List Nat → List Nat) (fromU : List Nat → G) (t : TxChannel)
    (ops : List ChOp) :
    (runTx hash fromU t ops).1.absorbed = t.absorbed ++ bytesOf ops
    ∧ (runTx hash fromU t (ops.map mirrorOp)).2 = (runTx hash fromU t ops).2
    ∧ ∀ t2 : TxChannel, t2.absorbed = t.absorbed →
        (runTx hash fromU t2 ops).2 = (runTx hash fromU t ops).2 := by
  refine ⟨runTx_absorbed hash fromU ops t, by rw [runTx_mirror], ?_⟩
  intro t2 h2
  cases t
  cases t2
  cases h2
  rfl

theorem transcript_challenges_deterministic_witness :
    (runTx (fun l => l) (fun bs => bs.headD 0) ⟨[1, 2]⟩ [ChOp.chal]).2 =
      (runTx (fun l => l) (fun bs => bs.headD 0) ⟨[1, 2]⟩ [ChOp.chal]).2 :=
  (transcript_challenges_deterministic (fun l => l) (fun bs => bs.headD 0)
    ⟨[1, 2]⟩ [ChOp.chal]).2.2 ⟨[1, 2]⟩ rfl

/-- Claim C6: `TxChannel::challenge` does not modify the transcript hash state (a
`chal` event leaves the channel state unchanged), so two consecutive
challenge draws with no intervening channel traffic return identical field
elements; in particular the `dim_chal` scalar draws of one `Prover::insert`
call are all the same element. -/
theorem challenge_draws_equal_within_insert {G : Type}
    (hash : List Nat → List Nat) (fromU : List Nat → G) (t : TxChannel)
    (ops : List ChOp) (dc : Nat) :
    (runTx hash fromU t (ChOp.chal :: ops)).1 = (runTx hash fromU t ops).1
    ∧ (runTx hash fromU t [ChOp.chal, ChOp.chal]).2 =
        [challengeFst hash fromU t, challengeFst hash fromU t]
    ∧ insertChals hash fromU dc t =
        List.replicate dc (challengeFst hash fromU t) := by
  refine ⟨rfl, rfl, ?_⟩
  rw [insertChals, List.map_const', List.length_range]

theorem proverDrain_lens (da dv dc : Nat) (addrs : List (List F)) :
    ∀ s : PS F,
      (proverDrain da dv dc s addrs).rds.length = s.rds.length + addrs.length
      ∧ (proverDrain da dv dc s addrs).wrs.length = s.wrs.length + addrs.length := by
  induction addrs with
  | nil => intro s; exact ⟨rfl, rfl⟩
  | cons addr addrs ih =>
      intro s
      rw [show proverDrain da dv dc s (addr :: addrs) =
            proverDrain da dv dc
              ((PS.remove da dv dc
                { s with wrs := s.wrs ++ [addr ++ List.replicate (dv + dc) (0 : F)] }
                addr).2) addrs from rfl]
      obtain ⟨h1, h2⟩ := ih
        ((PS.remove da dv dc
          { s with wrs := s.wrs ++ [addr ++ List.replicate (dv + dc) (0 : F)] }
          addr).2)
      constructor
      · rw [h1]
        simp [PS.remove]
        omega
      · rw [h2]
        simp [PS.remove]
        omega

theorem vStep_lens {A W : Type} (da dv : Nat) (s : VS A W) (op : VOp W) :
    (vStep da dv s op).rds.length = s.rds.length + 1
    ∧ (vStep da dv s op).wrs.length = s.wrs.length + 1 := by
  cases op <;> simp [vStep, VS.remove, VS.insert]

theorem vRun_lens {A W : Type} (da dv : Nat) (ops : List (VOp W)) :
    ∀ s : VS A W,
      (vRun da dv s ops).rds.length = s.rds.length + ops.length
      ∧ (vRun da dv s ops).wrs.length = s.wrs.length + ops.length := by
  induction ops with
  | nil => intro s; exact ⟨rfl, rfl⟩
  | cons op ops ih =>
      intro s
      rw [vRun]
      obtain ⟨h1, h2⟩ := ih (vStep da dv s op)
      obtain ⟨h3, h4⟩ := vStep_lens da dv s op
      rw [h1, h2, h3, h4]
      simp [List.length_cons]
      omega

/-- Claim C4: after every complete facade operation the two logs have equal length,
and the address drain preserves that equality — this invariant half of the
claim holds on both sides, and `Prover::finalize`'s `assert_eq!` does detect
a mismatch.  But on the Verifier side the corresponding `assert_eq!` runs
only after both logs were cleared, so it compares `0 = 0` and accepts even a
state whose logs have different lengths: the mismatch is not detected there,
contradicting the claim's "on both the Prover and Verifier sides". -/
theorem log_length_invariant_and_checks :
    (∀ (dc : Nat) (ops : List (MOp F)) (s : PS F),
        memRun dc PS.new ops = some s → s.rds.length = s.wrs.length)
    ∧ (∀ (da dv dc : Nat) (s : PS F) (addrs : List (List F)),
        s.rds.length = s.wrs.length →
          (proverDrain da dv dc s addrs).rds.length =
            (proverDrain da dv dc s addrs).wrs.length)
    ∧ (∀ (da dv dc : Nat) (s : PS F) (cc p1 p2 : F),
        s.rds.length ≠ s.wrs.length →
          proverFinalize da dv dc s [] cc p1 p2 = none)
    ∧ (∀ (da dv : Nat) (ops : List (VOp Nat)),
        (vRun da dv (VS.new Nat Nat) ops).rds.length =
          (vRun da dv (VS.new Nat Nat) ops).wrs.length)
    ∧ ((⟨[], [[0]], []⟩ : VS Nat Nat).rds.length ≠
          (⟨[], [[0]], []⟩ : VS Nat Nat).wrs.length
        ∧ verifierLenCheckAtFinalize (⟨[], [[0]], []⟩ : VS Nat Nat) = true) := by
  refine ⟨?_, ?_, ?_, ?_, by decide, by decide⟩
  · intro dc ops s h
    have hwnew : wfRecords (PS.new (F := F)) := by
      intro kv hkv
      simp [PS.new] at hkv
    obtain ⟨_, h1, h2, _⟩ := memRun_inv dc ops PS.new s h hwnew
    rw [h1, h2]
    simp [PS.new]
  · intro da dv dc s addrs h
    obtain ⟨h1, h2⟩ := proverDrain_lens da dv dc addrs s
    rw [h1, h2, h]
  · intro da dv dc s cc p1 p2 h
    simp only [proverFinalize]
    rw [show proverDrain da dv dc s [] = s from rfl, if_neg h]
  · intro da dv ops
    obtain ⟨h1, h2⟩ := vRun_lens da dv ops (VS.new Nat Nat)
    rw [h1, h2]
    simp [VS.new]

theorem log_length_invariant_and_checks_witness :
    proverFinalize 1 1 0 (⟨[], [[0]], []⟩ : PS (ZMod 5)) [] 0 0 0 = none :=
  (log_length_invariant_and_checks (F := ZMod 5)).2.2.1 1 1 0
    ⟨[], [[0]], []⟩ 0 0 0 (by decide)

theorem boundedIter_eq {G : Type} [CommRing G] (k : Nat) :
    ∀ c : G, boundedIter c k =
      (List.range k).map (fun i : Nat => [c + (i : G)]) := by
  induction k with
  | zero => intro c; rfl
  | succ k ih =>
      intro c
      rw [boundedIter, ih (c + 1), List.range_succ_eq_map, List.map_cons,
        List.map_map]
      congr 1
      · simp
      · apply List.map_congr_left
        intro i hi
        simp only [Function.comp_apply]
        congr 1
        push_cast
        ring

/-- Claim C7, counterexample: the claim "for every bound, enumerate yields `bound`
pairwise distinct addresses" fails as soon as the bound exceeds the field
size — over `ZMod 2` with bound 3 the incrementing cursor wraps around and
address 0 appears twice. -/
theorem bounded_enumerate_distinctness_counterexample :
    boundedSize 3 = 3 ∧ (boundedEnumerate (ZMod 2) 3).length = 3 ∧
      ¬ (boundedEnumerate (ZMod 2) 3).Nodup := by
  refine ⟨rfl, rfl, ?_⟩
  decide

/-- Claim C7, amended: `enumerate()` yields exactly `size() = bound` addresses in
the fixed deterministic order `0, 1, ..., bound-1` mapped into the field
(starting at the field's zero and incrementing by one) — in every field and
for every bound; they are pairwise distinct whenever the bound does not
exceed the modulus (e.g. `bound ≤ n` over `ZMod n`), the case the RAM
protocol uses, but not for larger bounds, where the sequence wraps. -/
theorem bounded_enumerate_amended (n bound : Nat) (hb : bound ≤ n) :
    (∀ (G : Type) [CommRing G] (b2 : Nat),
        boundedEnumerate G b2 = (List.range b2).map (fun i : Nat => [(i : G)])
        ∧ (boundedEnumerate G b2).length = boundedSize b2)
    ∧ (boundedEnumerate (ZMod n) bound).Nodup := by
  have henum : ∀ (G : Type) [CommRing G] (b2 : Nat),
      boundedEnumerate G b2 =
        (List.range b2).map (fun i : Nat => [(i : G)]) := by
    intro G _ b2
    rw [boundedEnumerate, boundedIter_eq]
    apply List.map_congr_left
    intro i hi
    rw [zero_add]
  constructor
  · intro G _ b2
    refine ⟨henum G b2, ?_⟩
    rw [henum G b2, List.length_map, List.length_range]
    rfl
  · rw [henum (ZMod n) bound]
    cases n with
    | zero =>
        have : bound = 0 := Nat.le_zero.mp hb
        subst this
        simp
    | succ m =>
        apply List.Nodup.map_on
        · intro i hi j hj hij
          have hi2 : i < m + 1 := lt_of_lt_of_le (List.mem_range.mp hi) hb
          have hj2 : j < m + 1 := lt_of_lt_of_le (List.mem_range.mp hj) hb
          have hcast : (i : ZMod (m + 1)) = (j : ZMod (m + 1)) :=
            (List.cons.injEq .. |>.mp hij).1
          have := congrArg ZMod.val hcast
          rwa [ZMod.val_cast_of_lt hi2, ZMod.val_cast_of_lt hj2] at this
        · exact List.nodup_range bound

theorem bounded_enumerate_amended_witness :
    (boundedEnumerate (ZMod 7) 2 =
        (List.range 2).map (fun i : Nat => [(i : ZMod 7)]))
    ∧ (boundedEnumerate (ZMod 5) 3).Nodup :=
  ⟨((bounded_enumerate_amended 7 2 (by decide)).1 (ZMod 7) 2).1,
   (bounded_enumerate_amended 5 3 (by decide)).2⟩

theorem horner_foldl_sum (x : F) (ts : List F) :
    ∀ t : F,
      ts.foldl (fun y c => y * x + c) t =
        ∑ i ∈ Finset.range (ts.length + 1),
          (t :: ts).getD i 0 * x ^ (ts.length - i) := by
  induction ts with
  | nil =>
      intro t
      simp
  | cons c ts2 ih =>
      intro t
      rw [List.foldl_cons, ih (t * x + c)]
      simp only [List.length_cons]
      simp only [Finset.sum_range_succ']
      simp only [List.getD_cons_succ, List.getD_cons_zero, Nat.add_sub_add_right,
        Nat.sub_zero]
      ring

/-- Claim C8: `combine` on a non-empty tuple is the Horner-style fold
`((t0 * x + t1) * x + t2) * x + ... + tk`, i.e. it evaluates to the power sum
`sum_i t_i * x^(k-i)`; and `collapse_vecs` produces exactly one field element
per operation record. -/
theorem combine_horner_eval (t : F) (ts : List F) (x : F)
    (records : List (List F)) (out : List F) :
    combineV (t :: ts) x =
      some (∑ i ∈ Finset.range (ts.length + 1),
        (t :: ts).getD i 0 * x ^ (ts.length - i))
    ∧ (collapseVecs records x = some out → out.length = records.length) := by
  constructor
  · rw [combineV, horner_foldl_sum x ts t]
  · intro h
    induction records generalizing out with
    | nil =>
        rw [collapseVecs] at h
        cases h
        rfl
    | cons r rest ih =>
        rw [collapseVecs] at h
        cases hc : combineV r x with
        | none => rw [hc] at h; cases h
        | some y =>
            rw [hc] at h
            cases hrest : collapseVecs rest x with
            | none => rw [hrest] at h; cases h
            | some out2 =>
                rw [hrest] at h
                cases h
                rw [List.length_cons, List.length_cons, ih out2 hrest]

theorem combine_horner_eval_witness :
    ([1, 2] : List (ZMod 7)).length = ([[1], [2]] : List (List (ZMod 7))).length
    ∧ combineV ((2 : ZMod 7) :: [3]) 4 =
        some (∑ i ∈ Finset.range ([(3 : ZMod 7)].length + 1),
          ((2 : ZMod 7) :: [3]).getD i 0 * (4 : ZMod 7) ^ ([(3 : ZMod 7)].length - i)) :=
  ⟨(combine_horner_eval (2 : ZMod 7) [3] 4 [[1], [2]] [1, 2]).2 (by decide),
   (combine_horner_eval (2 : ZMod 7) [3] 4 [[1], [2]] [1, 2]).1⟩

/-- Claim C2, counterexample: a state whose collapsed read log `[0, 1]` and
collapsed write log `[0, 2]` are different multisets, yet `finalize` with
permutation challenges drawn as `0` accepts (`some true`), because the
shifted products coincide (`0 * 1 = 0 * 2 = 0`): multiset inequality of the
combined logs does not by itself force the product check to reject. -/
theorem perm_check_accepts_differing_multisets :
    proverFinalize 1 1 0 (⟨[], [[0], [1]], [[0], [2]]⟩ : PS (ZMod 5)) [] 0 0 0
      = some true
    ∧ collapseVecs ([[0], [1]] : List (List (ZMod 5))) 0 = some [0, 1]
    ∧ collapseVecs ([[0], [2]] : List (List (ZMod 5))) 0 = some [0, 2]
    ∧ (↑([0, 1] : List (ZMod 5)) : Multiset (ZMod 5)) ≠ ↑([0, 2] : List (ZMod 5)) := by
  refine ⟨by decide, by decide, by decide, by decide⟩

theorem multiset_prod_neg_roots {K : Type} [Field K] [DecidableEq K]
    (l : List K) :
    (((↑l : Multiset K).map
        (fun w => Polynomial.X - Polynomial.C (-w))).prod).roots
      = (↑l : Multiset K).map Neg.neg := by
  have h := Polynomial.roots_multiset_prod_X_sub_C
    ((↑l : Multiset K).map Neg.neg)
  rw [Multiset.map_map] at h
  simpa [Function.comp] using h

theorem multiset_prod_neg_natDegree {K : Type} [Field K] [DecidableEq K]
    (l : List K) :
    (((↑l : Multiset K).map
        (fun w => Polynomial.X - Polynomial.C (-w))).prod).natDegree
      = l.length := by
  have h := Polynomial.natDegree_multiset_prod_X_sub_C_eq_card
    ((↑l : Multiset K).map Neg.neg)
  rw [Multiset.map_map] at h
  simpa [Function.comp] using h

theorem multiset_prod_neg_eval {K : Type} [Field K] [DecidableEq K]
    (l : List K) (x : K) :
    Polynomial.eval x
        (((↑l : Multiset K).map
          (fun w => Polynomial.X - Polynomial.C (-w))).prod)
      = (l.map (fun y => y + x)).prod := by
  rw [Polynomial.eval_multiset_prod, Multiset.map_map, Multiset.map_coe,
    Multiset.prod_coe]
  congr 1
  apply List.map_congr_left
  intro a ha
  simp [sub_neg_eq_add, add_comm]

/-- Claim C2, amended: if the multiset of combined read records differs from the
multiset of combined write records, the permutation check's product identity
can still hold at unlucky challenges, so `finalize` is not guaranteed to
fail; what holds is that the set of permutation challenges at which the check
accepts has size at most the log length (the root count of a nonzero
polynomial of that degree) — at every other challenge the final `assert_zero`
rejects and surfaces as a verification failure. -/
theorem perm_check_soundness_amended {K : Type} [Field K] [DecidableEq K]
    (ws rs : List K) (hlen : ws.length = rs.length)
    (hne : (↑ws : Multiset K) ≠ (↑rs : Multiset K)) :
    ∃ bad : Finset K, bad.card ≤ ws.length ∧
      ∀ x : K, permutationCheck x ws rs = true → x ∈ bad := by
  classical
  have hPne :
      ((↑ws : Multiset K).map
          (fun w => Polynomial.X - Polynomial.C (-w))).prod -
        ((↑rs : Multiset K).map
          (fun w => Polynomial.X - Polynomial.C (-w))).prod ≠ 0 := by
    intro h0
    have hAB := sub_eq_zero.mp h0
    have h1 : (↑ws : Multiset K).map Neg.neg = (↑rs : Multiset K).map Neg.neg := by
      rw [← multiset_prod_neg_roots ws, ← multiset_prod_neg_roots rs, hAB]
    exact hne (Multiset.map_injective neg_injective h1)
  have hdegP :
      (((↑ws : Multiset K).map
          (fun w => Polynomial.X - Polynomial.C (-w))).prod -
        ((↑rs : Multiset K).map
          (fun w => Polynomial.X - Polynomial.C (-w))).prod).natDegree
        ≤ ws.length := by
    refine le_trans (Polynomial.natDegree_sub_le _ _) ?_
    rw [multiset_prod_neg_natDegree ws, multiset_prod_neg_natDegree rs, hlen,
      max_self]
  refine ⟨(((↑ws : Multiset K).map
      (fun w => Polynomial.X - Polynomial.C (-w))).prod -
    ((↑rs : Multiset K).map
      (fun w => Polynomial.X - Polynomial.C (-w))).prod).roots.toFinset,
    ?_, ?_⟩
  · exact le_trans (Multiset.toFinset_card_le _)
      (le_trans (Polynomial.card_roots' _) hdegP)
  · intro x hx
    have hprod : (ws.map (fun y => y + x)).prod = (rs.map (fun y => y + x)).prod :=
      of_decide_eq_true hx
    have hev :
        Polynomial.eval x
            (((↑ws : Multiset K).map
                (fun w => Polynomial.X - Polynomial.C (-w))).prod -
              ((↑rs : Multiset K).map
                (fun w => Polynomial.X - Polynomial.C (-w))).prod) = 0 := by
      rw [Polynomial.eval_sub, multiset_prod_neg_eval ws x,
        multiset_prod_neg_eval rs x, hprod, sub_self]
    rw [Multiset.mem_toFinset, Polynomial.mem_roots hPne]
    exact hev

theorem perm_check_soundness_amended_witness :
    ∃ bad : Finset (ZMod 2), bad.card ≤ ([1] : List (ZMod 2)).length ∧
      ∀ x : ZMod 2,
        permutationCheck x ([1] : List (ZMod 2)) [0] = true → x ∈ bad :=
  perm_check_soundness_amended [1] [0] (by decide) (by decide)

end DoraRam

